import Mathlib

/-!
Verification of the table-mapping strategies of `lib/mapping/table-mappings.js`
(the variant with the `convertLongToString` flag and the null/typeof guards,
which the specification designates as the intended contract).

Strings are modelled as `List Char`; the JavaScript string operations used by
the source (`split(/(?=[A-Z])/)`, `split('_')`, `join('_')`, `join('')`,
`toLowerCase`, `toUpperCase` on ASCII identifiers) are embedded below.
`Char.isUpper` coincides exactly with the regex class `[A-Z]`, and
`Char.toLower` / `Char.toUpper` coincide with the JavaScript conversions on
the ASCII range.

Documents are modelled by the inductive `Value`, covering the JavaScript
values the mapper distinguishes: `null`, booleans, numbers, strings, `Date`
instances, `Long` instances (the driver's 64-bit integer type), plain
objects (ordered key/value lists) and arrays.
-/

/-! ## Embeddings of the JavaScript string operations -/

/-- JavaScript `s.toLowerCase()` on an ASCII string: lowercase every character. -/
def jsToLowerString (s : String) : String := String.mk (s.data.map Char.toLower)

/-- Helper for `String.prototype.split(/(?=[A-Z])/)`: returns the first chunk
and the list of later chunks, where a chunk boundary is placed immediately
before every uppercase character (including one at position 0, which the
zero-width lookahead split itself does not produce; `jsSplitLookaheadUpper`
drops that empty leading chunk, mirroring the ECMAScript algorithm, which
never splits at the start of the string). -/
def splitEU : List Char → List Char × List (List Char)
  | [] => ([], [])
  | c :: rest =>
    let p := splitEU rest
    if c.isUpper then ([], (c :: p.1) :: p.2) else (c :: p.1, p.2)

/-- JavaScript `s.split(/(?=[A-Z])/)`: split immediately before every uppercase
character that is not at position 0. The result is never the empty list
(splitting the empty string yields `[""]`). -/
def jsSplitLookaheadUpper (l : List Char) : List (List Char) :=
  match splitEU l with
  | ([], s :: ss) => s :: ss
  | (s, ss) => s :: ss

/-- JavaScript `array.join('_')` on an array of strings. -/
def joinUnderscore : List (List Char) → List Char
  | [] => []
  | [s] => s
  | s :: rest => s ++ '_' :: joinUnderscore rest

/-- Helper for `String.prototype.split(sep)` with a single-character separator:
first chunk plus later chunks. -/
def splitCh (sep : Char) : List Char → List Char × List (List Char)
  | [] => ([], [])
  | c :: rest =>
    let p := splitCh sep rest
    if c = sep then ([], p.1 :: p.2) else (c :: p.1, p.2)

/-- JavaScript `s.split(sep)` for a one-character separator (`'_'` in the
source). Splitting the empty string yields `[""]`; consecutive, leading or
trailing separators yield empty chunks, as in JavaScript. -/
def jsSplitChar (sep : Char) (l : List Char) : List (List Char) :=
  (splitCh sep l).1 :: (splitCh sep l).2

/-- JavaScript `word.charAt(0).toUpperCase() + word.slice(1)`: on the empty
string all three operations return the empty string, so the word is unchanged. -/
def upperFirstWord : List Char → List Char
  | [] => []
  | c :: rest => Char.toUpper c :: rest

/-! ## The `TableMappings` base class -/

namespace TableMappings

/-- Reserved CQL keywords, as listed (uppercase) in the `TableMappings`
constructor. -/
def ReservedWordsRaw : List String := ["ADD", "ALLOW", "ALTER", "AND", "APPLY", "ASC", "AUTHORIZE", "BATCH", "BEGIN", "BY", "COLUMNFAMILY", "CREATE", "DELETE", "DESC", "DESCRIBE", "DROP", "ENTRIES", "EXECUTE", "FROM", "FULL", "GRANT", "IF", "IN", "INDEX", "INFINITY", "INSERT", "INTO", "KEYSPACE", "LIMIT", "MODIFY", "NAN", "NORECURSIVE", "NOT", "NULL", "OF", "ON", "OR", "ORDER", "PRIMARY", "RENAME", "REPLACE", "REVOKE", "SCHEMA", "SELECT", "SET", "TABLE", "TO", "TOKEN", "TRUNCATE", "UNLOGGED", "UPDATE", "USE", "USING", "VIEW", "WHERE", "WITH"]

/-- The `ReservedWords` field: the raw list mapped through
`word => word.toLowerCase()`. -/
def ReservedWords : List String := ReservedWordsRaw.map jsToLowerString

/-- Base-class `getColumnName`: the identity. -/
def getColumnName (propName : String) : String := propName

/-- Base-class `getPropertyName`: the identity. -/
def getPropertyName (columnName : String) : String := columnName

end TableMappings

/-! ## The underscore (snake-case) column-name conversion

The two underscore strategies carry textually identical `getColumnName`
bodies: `PropName.split(/(?=[A-Z])/).join('_').toLowerCase()`, followed by
the reserved-word check appending a trailing underscore. -/

/-- The snake-casing step of `getColumnName` (before the reserved-word check):
`PropName.split(/(?=[A-Z])/).join('_').toLowerCase()` on a character list. -/
def underscoreSnakeChars (l : List Char) : List Char :=
  (joinUnderscore (jsSplitLookaheadUpper l)).map Char.toLower

/-- Shared body of `getColumnName` of `UnderscoreCqlToCamelCaseMappings` and
`UnderscoreCqlToPascalCaseMappings`: snake-case, then append `'_'` when the
result is a member of `ReservedWords`. -/
def underscoreGetColumnNameChars (l : List Char) : List Char :=
  let propertyname := underscoreSnakeChars l
  if String.mk propertyname ∈ TableMappings.ReservedWords then propertyname ++ ['_']
  else propertyname

/-- Camel-case `getPropertyName` body:
`columnName.split('_').map((word, index) => index === 0 ? word : upperFirst(word)).join('')`. -/
def camelGetPropertyNameChars (l : List Char) : List Char :=
  ((jsSplitChar '_' l).mapIdx fun i word => if i = 0 then word else upperFirstWord word).flatten

/-- Pascal-case `getPropertyName` body:
`ColumnName.split('_').map((word) => upperFirst(word)).join('')`. -/
def pascalGetPropertyNameChars (l : List Char) : List Char :=
  ((jsSplitChar '_' l).map fun word => upperFirstWord word).flatten

/-! ## The document value model -/

/-- JavaScript values handled by the structural conversions: `null`, booleans,
numbers, strings, `Date` instances, `Long` instances (the driver's 64-bit
integer type, carried as the represented integer), plain objects in key
insertion order, and arrays. -/
inductive Value where
  | null : Value
  | bool (b : Bool) : Value
  | num (n : Int) : Value
  | str (s : String) : Value
  | date (t : Int) : Value
  | long (n : Int) : Value
  | obj (kvs : List (String × Value)) : Value
  | arr (vs : List Value) : Value

/-- JavaScript `typeof v === 'object'`: true for `null`, `Date` and `Long`
instances, plain objects and arrays; false for booleans, numbers and strings. -/
def jsTypeofObject : Value → Bool
  | .null => true
  | .date _ => true
  | .long _ => true
  | .obj _ => true
  | .arr _ => true
  | _ => false

/-- Modelled from the spec: the big-integer leaf type (`Long`, imported from
the driver's `types` module, which is not part of the mapping source). The
spec fixes its observable behavior: `toString` produces the decimal string
representation of the represented integer. -/
def longToString (n : Int) : String := toString n

/-- Modelled from the spec: a `Long` is a host object (so `typeof` yields
`'object'` and it has own enumerable properties); per the underlying long.js
representation used by the driver these properties are the signed 32-bit
halves `low` and `high` and the boolean flag `unsigned`. Only the fact that
a `Long` enumerates to a fixed list of scalar-valued fields matters to the
theorems below. -/
def longOwnEntries (n : Int) : List (String × Value) :=
  [("low", .num (signed32 ((n % 18446744073709551616).toNat % 4294967296))),
   ("high", .num (signed32 ((n % 18446744073709551616).toNat / 4294967296))),
   ("unsigned", .bool false)]
where
  /-- Reinterpret a value below `2 ^ 32` as a signed 32-bit integer. -/
  signed32 (m : Nat) : Int := if m < 2147483648 then (m : Int) else (m : Int) - 4294967296

/-- JavaScript `Object.entries(v)` for the values that can reach it in the
source: the key/value list of a plain object, the indexed elements of an
array, the empty list for a `Date` (a `Date` has no own enumerable
properties), the field list of a `Long`, and the empty list for primitives. -/
def jsEntries : Value → List (String × Value)
  | .obj kvs => kvs
  | .arr vs => vs.enum.map fun p => (toString p.1, p.2)
  | .date _ => []
  | .long n => longOwnEntries n
  | _ => []

/-- JavaScript property assignment `newObject[k] = v` on a plain object in
insertion order: an existing key keeps its position and gets the new value, a
fresh key is appended. -/
def jsSetKey : List (String × Value) → String → Value → List (String × Value)
  | [], k, v => [(k, v)]
  | (k', v') :: rest, k, v =>
    if k' = k then (k, v) :: rest else (k', v') :: jsSetKey rest k v

/-! ## `UnderscoreCqlToCamelCaseMappings` -/

/-- Camel strategy `getColumnName` on `String` keys. -/
def camelGetColumnName (propName : String) : String :=
  String.mk (underscoreGetColumnNameChars propName.data)

/-- Camel strategy `getPropertyName` on `String` keys. -/
def camelGetPropertyName (columnName : String) : String :=
  String.mk (camelGetPropertyNameChars columnName.data)

/-- The `Object.entries` loop specialised to an entry list whose values are
all primitives (the fields of a `Long`): every `instanceof`/`typeof 'object'`
test fails, so each value is assigned unchanged under the converted key. -/
def scalarEntriesLoop (conv : String → String) :
    List (String × Value) → List (String × Value) → List (String × Value)
  | [], acc => acc
  | (k, v) :: rest, acc => scalarEntriesLoop conv rest (jsSetKey acc (conv k) v)

mutual

/-- Camel strategy `objectToTableCasing(obj)`. Branch order follows the
source: `typeof obj !== 'object' || obj === null` returns `obj` (the
non-`object`-typed values and `null`); `Array.isArray(obj)` maps the
conversion over the elements; otherwise the `Object.entries` loop builds a
new object, so a `Date` (no own enumerable properties) yields `{}` and a
`Long` yields the object of its scalar fields with identity-converted keys
(`low`, `high`, `unsigned` have no uppercase letter and are not reserved). -/
def camelObjectToTableCasing (flag : Bool) : Value → Value
  | .obj kvs => .obj (camelTableEntriesLoop flag kvs [])
  | .arr vs => .arr (camelTableArrMap flag vs)
  | .date _ => .obj []
  | .long n => .obj (scalarEntriesLoop camelGetColumnName (longOwnEntries n) [])
  | v => v

/-- The `for (const [key, value] of Object.entries(obj))` loop of
`objectToTableCasing`, folding `newObject[this.getColumnName(key)] = …` over
the accumulated object. -/
def camelTableEntriesLoop (flag : Bool) :
    List (String × Value) → List (String × Value) → List (String × Value)
  | [], acc => acc
  | (k, v) :: rest, acc =>
    camelTableEntriesLoop flag rest
      (jsSetKey acc (camelGetColumnName k) (camelTableValue flag v))

/-- The per-entry branch of `objectToTableCasing`: `Date`, `null` and `Long`
values are leaves (a `Long` becoming its decimal string when
`convertLongToString` is set), other `object`-typed values recurse, the rest
pass through. -/
def camelTableValue (flag : Bool) : Value → Value
  | .date t => .date t
  | .null => .null
  | .long n => if flag then .str (longToString n) else .long n
  | .obj kvs => .obj (camelTableEntriesLoop flag kvs [])
  | .arr vs => .arr (camelTableArrMap flag vs)
  | v => v

/-- The `obj.map((value) => this.objectToTableCasing(value))` branch. -/
def camelTableArrMap (flag : Bool) : List Value → List Value
  | [] => []
  | v :: vs => camelObjectToTableCasing flag v :: camelTableArrMap flag vs

end

mutual

/-- Camel strategy `objectToFixedCasing(obj)`: the mirror of
`objectToTableCasing` with `getPropertyName` as the key conversion. -/
def camelObjectToFixedCasing (flag : Bool) : Value → Value
  | .obj kvs => .obj (camelFixedEntriesLoop flag kvs [])
  | .arr vs => .arr (camelFixedArrMap flag vs)
  | .date _ => .obj []
  | .long n => .obj (scalarEntriesLoop camelGetPropertyName (longOwnEntries n) [])
  | v => v

/-- The `Object.entries` loop of `objectToFixedCasing`. -/
def camelFixedEntriesLoop (flag : Bool) :
    List (String × Value) → List (String × Value) → List (String × Value)
  | [], acc => acc
  | (k, v) :: rest, acc =>
    camelFixedEntriesLoop flag rest
      (jsSetKey acc (camelGetPropertyName k) (camelFixedValue flag v))

/-- The per-entry branch of `objectToFixedCasing`. -/
def camelFixedValue (flag : Bool) : Value → Value
  | .date t => .date t
  | .null => .null
  | .long n => if flag then .str (longToString n) else .long n
  | .obj kvs => .obj (camelFixedEntriesLoop flag kvs [])
  | .arr vs => .arr (camelFixedArrMap flag vs)
  | v => v

/-- The array branch of `objectToFixedCasing`. -/
def camelFixedArrMap (flag : Bool) : List Value → List Value
  | [] => []
  | v :: vs => camelObjectToFixedCasing flag v :: camelFixedArrMap flag vs

end

/-- Camel strategy `objectToArray(obj)`: non-`object`-typed input returns
`[obj]`, `null` returns `[]`, and otherwise every value of
`Object.entries(obj)` is pushed, `object`-typed values first going through
`objectToTableCasing`. -/
def camelObjectToArray (flag : Bool) : Value → List Value
  | .null => []
  | .bool b => [.bool b]
  | .num n => [.num n]
  | .str s => [.str s]
  | v => (jsEntries v).map fun p =>
      if jsTypeofObject p.2 then camelObjectToTableCasing flag p.2 else p.2

/-! ## `UnderscoreCqlToPascalCaseMappings` -/

/-- Pascal strategy `getColumnName`: body identical to the camel one. -/
def pascalGetColumnName (propName : String) : String :=
  String.mk (underscoreGetColumnNameChars propName.data)

/-- Pascal strategy `getPropertyName` on `String` keys. -/
def pascalGetPropertyName (columnName : String) : String :=
  String.mk (pascalGetPropertyNameChars columnName.data)

mutual

/-- Pascal strategy `objectToTableCasing(obj)`. Unlike every other
direction, its `Date`/`null`/`Long` entry branch assigns the value with no
`convertLongToString` conversion (`newObject[this.getColumnName(key)] =
value`), so it takes no flag. -/
def pascalObjectToTableCasing : Value → Value
  | .obj kvs => .obj (pascalTableEntriesLoop kvs [])
  | .arr vs => .arr (pascalTableArrMap vs)
  | .date _ => .obj []
  | .long n => .obj (scalarEntriesLoop pascalGetColumnName (longOwnEntries n) [])
  | v => v

/-- The `Object.entries` loop of the pascal `objectToTableCasing`. -/
def pascalTableEntriesLoop :
    List (String × Value) → List (String × Value) → List (String × Value)
  | [], acc => acc
  | (k, v) :: rest, acc =>
    pascalTableEntriesLoop rest
      (jsSetKey acc (pascalGetColumnName k) (pascalTableValue v))

/-- The per-entry branch of the pascal `objectToTableCasing`: leaves pass
through unchanged (no `Long` conversion), other `object`-typed values
recurse. -/
def pascalTableValue : Value → Value
  | .date t => .date t
  | .null => .null
  | .long n => .long n
  | .obj kvs => .obj (pascalTableEntriesLoop kvs [])
  | .arr vs => .arr (pascalTableArrMap vs)
  | v => v

/-- The array branch of the pascal `objectToTableCasing`. -/
def pascalTableArrMap : List Value → List Value
  | [] => []
  | v :: vs => pascalObjectToTableCasing v :: pascalTableArrMap vs

end

mutual

/-- Pascal strategy `objectToFixedCasing(obj)`: applies the
`convertLongToString` flag to `Long` leaves (via its if/else assignment) and
converts keys with the pascal `getPropertyName`. -/
def pascalObjectToFixedCasing (flag : Bool) : Value → Value
  | .obj kvs => .obj (pascalFixedEntriesLoop flag kvs [])
  | .arr vs => .arr (pascalFixedArrMap flag vs)
  | .date _ => .obj []
  | .long n => .obj (scalarEntriesLoop pascalGetPropertyName (longOwnEntries n) [])
  | v => v

/-- The `Object.entries` loop of the pascal `objectToFixedCasing`. -/
def pascalFixedEntriesLoop (flag : Bool) :
    List (String × Value) → List (String × Value) → List (String × Value)
  | [], acc => acc
  | (k, v) :: rest, acc =>
    pascalFixedEntriesLoop flag rest
      (jsSetKey acc (pascalGetPropertyName k) (pascalFixedValue flag v))

/-- The per-entry branch of the pascal `objectToFixedCasing`. -/
def pascalFixedValue (flag : Bool) : Value → Value
  | .date t => .date t
  | .null => .null
  | .long n => if flag then .str (longToString n) else .long n
  | .obj kvs => .obj (pascalFixedEntriesLoop flag kvs [])
  | .arr vs => .arr (pascalFixedArrMap flag vs)
  | v => v

/-- The array branch of the pascal `objectToFixedCasing`. -/
def pascalFixedArrMap (flag : Bool) : List Value → List Value
  | [] => []
  | v :: vs => pascalObjectToFixedCasing flag v :: pascalFixedArrMap flag vs

end

/-- Pascal strategy `objectToArray(obj)`: same body as the camel one, using
the pascal `objectToTableCasing`. -/
def pascalObjectToArray : Value → List Value
  | .null => []
  | .bool b => [.bool b]
  | .num n => [.num n]
  | .str s => [.str s]
  | v => (jsEntries v).map fun p =>
      if jsTypeofObject p.2 then pascalObjectToTableCasing p.2 else p.2

/-! ## `DefaultTableMappings` -/

mutual

/-- Default strategy `objectToTableCasing(obj)`: identity key conversion
(`getColumnName` of the base class), leaves pass through unchanged (the
class has no `convertLongToString` flag). -/
def defaultObjectToTableCasing : Value → Value
  | .obj kvs => .obj (defaultTableEntriesLoop kvs [])
  | .arr vs => .arr (defaultTableArrMap vs)
  | .date _ => .obj []
  | .long n => .obj (scalarEntriesLoop TableMappings.getColumnName (longOwnEntries n) [])
  | v => v

/-- The `Object.entries` loop of the default `objectToTableCasing`. -/
def defaultTableEntriesLoop :
    List (String × Value) → List (String × Value) → List (String × Value)
  | [], acc => acc
  | (k, v) :: rest, acc =>
    defaultTableEntriesLoop rest
      (jsSetKey acc (TableMappings.getColumnName k) (defaultTableValue v))

/-- The per-entry branch of the default `objectToTableCasing`. -/
def defaultTableValue : Value → Value
  | .date t => .date t
  | .null => .null
  | .long n => .long n
  | .obj kvs => .obj (defaultTableEntriesLoop kvs [])
  | .arr vs => .arr (defaultTableArrMap vs)
  | v => v

/-- The array branch of the default `objectToTableCasing`. -/
def defaultTableArrMap : List Value → List Value
  | [] => []
  | v :: vs => defaultObjectToTableCasing v :: defaultTableArrMap vs

end

/-! ## Spec-side formulations used by the claims -/

/-- Helper for `lookaheadSnakeChars`: walks the string with the previous
character in hand and applies the three-way test. -/
def lookaheadSnakeGo : Option Char → List Char → List Char
  | _, [] => []
  | prev, c :: rest =>
    let prevIsLower := match prev with | some p => p.isLower | none => false
    let nextIsLower := match rest with | d :: _ => d.isLower | [] => false
    let sep := c.isUpper && (prevIsLower || (prev.isSome && nextIsLower))
    (if sep then ['_', c.toLower] else [c.toLower]) ++ lookaheadSnakeGo (some c) rest

/-- Formulation following the claim's words (and the type-level `snakeCase`
of `index.d.ts`): a separator is inserted exactly before an uppercase letter
that is preceded by a lowercase letter, or that is followed by a lowercase
letter while not being the first character; the whole result is lowercased. -/
def lookaheadSnakeChars (l : List Char) : List Char := lookaheadSnakeGo none l

/-- Formulation of the amended claim: a separator is inserted before every
uppercase letter that is not the first character, regardless of the
neighbouring characters; the whole result is lowercased. -/
def everyUpperSnakeChars : List Char → List Char
  | [] => []
  | c :: rest =>
    c.toLower ::
      (rest.map fun d => if d.isUpper then ['_', d.toLower] else [d.toLower]).flatten

/-- Formulation of the camel `getPropertyName` following the spec's words:
split on underscore, leave the first segment unchanged, upper-case the first
character of every subsequent segment, concatenate with no separator. -/
def camelPropertyNameSpec (l : List Char) : List Char :=
  match jsSplitChar '_' l with
  | [] => []
  | w :: ws => w ++ (ws.map upperFirstWord).flatten

/-- Formulation of the pascal `getPropertyName` following the spec's words:
split on underscore, upper-case the first character of every segment
including the first, concatenate with no separator. -/
def pascalPropertyNameSpec (l : List Char) : List Char :=
  match jsSplitChar '_' l with
  | [] => []
  | w :: ws => upperFirstWord w ++ (ws.map upperFirstWord).flatten

/-! ## Character facts for the ASCII conversions -/

theorem char_toNat_ofNat {n : Nat} (h : n.isValidChar) : (Char.ofNat n).toNat = n := by
  unfold Char.ofNat
  rw [dif_pos h]
  simp [Char.ofNatAux, Char.toNat, UInt32.toNat]

theorem upper_toNat_bounds {c : Char} (h : c.isUpper = true) :
    65 ≤ c.toNat ∧ c.toNat ≤ 90 := by
  simp only [Char.isUpper, ge_iff_le, Bool.and_eq_true, decide_eq_true_eq,
    UInt32.le_def, BitVec.le_def] at h
  have e1 : (UInt32.toBitVec 65).toNat = 65 := by decide
  have e2 : (UInt32.toBitVec 90).toNat = 90 := by decide
  simp only [Char.toNat, UInt32.toNat]
  omega

theorem toLower_of_not_upper {c : Char} (h : c.isUpper = false) : Char.toLower c = c := by
  unfold Char.toLower
  simp only [Char.isUpper, ge_iff_le, Bool.and_eq_false_iff, decide_eq_false_iff_not,
    UInt32.le_def, BitVec.le_def] at h
  rw [if_neg]
  intro hc
  obtain ⟨h1, h2⟩ := hc
  simp only [Char.toNat, UInt32.toNat] at h1 h2
  have e1 : (UInt32.toBitVec 65).toNat = 65 := by decide
  have e2 : (UInt32.toBitVec 90).toNat = 90 := by decide
  rcases h with h | h <;> omega

theorem toLower_of_upper {c : Char} (h : c.isUpper = true) :
    Char.toLower c = Char.ofNat (c.toNat + 32) := by
  obtain ⟨h1, h2⟩ := upper_toNat_bounds h
  unfold Char.toLower
  rw [if_pos (show Char.toNat c ≥ 65 ∧ Char.toNat c ≤ 90 from ⟨h1, h2⟩)]

theorem toUpper_toLower_of_upper {c : Char} (h : c.isUpper = true) :
    Char.toUpper (Char.toLower c) = c := by
  obtain ⟨h1, h2⟩ := upper_toNat_bounds h
  rw [toLower_of_upper h]
  have hvc : (c.toNat + 32).isValidChar := Or.inl (by omega)
  have hv : (Char.ofNat (c.toNat + 32)).toNat = c.toNat + 32 := char_toNat_ofNat hvc
  unfold Char.toUpper
  rw [hv, if_pos (by omega)]
  have h3 : c.toNat + 32 - 32 = c.toNat := by omega
  rw [h3, Char.ofNat_toNat]

theorem not_upper_of_lower {c : Char} (h : c.isLower = true) : c.isUpper = false := by
  simp only [Char.isLower, Char.isUpper, ge_iff_le, Bool.and_eq_true, decide_eq_true_eq,
    UInt32.le_def, BitVec.le_def, Bool.and_eq_false_iff, decide_eq_false_iff_not] at *
  have e1 : (UInt32.toBitVec 65).toNat = 65 := by decide
  have e2 : (UInt32.toBitVec 90).toNat = 90 := by decide
  have e3 : (UInt32.toBitVec 97).toNat = 97 := by decide
  have e4 : (UInt32.toBitVec 122).toNat = 122 := by decide
  omega

theorem toLower_ne_underscore {c : Char} (h : c.isAlpha = true) : Char.toLower c ≠ '_' := by
  intro heq
  have hval : (Char.toLower c).toNat = ('_' : Char).toNat := by rw [heq]
  simp only [Char.isAlpha, Char.isUpper, Char.isLower, Bool.or_eq_true, Bool.and_eq_true,
    ge_iff_le, decide_eq_true_eq, UInt32.le_def, BitVec.le_def] at h
  have e1 : (UInt32.toBitVec 65).toNat = 65 := by decide
  have e2 : (UInt32.toBitVec 90).toNat = 90 := by decide
  have e3 : (UInt32.toBitVec 97).toNat = 97 := by decide
  have e4 : (UInt32.toBitVec 122).toNat = 122 := by decide
  have e5 : ('_' : Char).val.toBitVec.toNat = 95 := by decide
  unfold Char.toLower at hval
  by_cases hu : Char.toNat c ≥ 65 ∧ Char.toNat c ≤ 90
  · rw [if_pos hu] at hval
    have hvc : (c.toNat + 32).isValidChar := Or.inl (by
      simp only [Char.toNat, UInt32.toNat] at hu ⊢
      omega)
    rw [char_toNat_ofNat hvc] at hval
    simp only [Char.toNat, UInt32.toNat] at hval hu
    omega
  · rw [if_neg hu] at hval
    simp only [Char.toNat, UInt32.toNat] at hval hu h
    rcases h with ⟨ha, hb⟩ | ⟨ha, hb⟩ <;> omega

theorem map_toLower_of_no_upper {l : List Char} (h : ∀ c ∈ l, c.isUpper = false) :
    l.map Char.toLower = l := by
  induction l with
  | nil => rfl
  | cons c rest ih =>
    simp only [List.map_cons, List.cons.injEq]
    exact ⟨toLower_of_not_upper (h c (List.mem_cons_self c rest)),
      ih fun d hd => h d (List.mem_cons_of_mem c hd)⟩

/-! ## Concrete behavior of the embedded string operations -/

example : jsSplitLookaheadUpper "userId".data = ["user".data, "Id".data] := by decide
example : jsSplitLookaheadUpper "AB".data = [['A'], ['B']] := by decide
example : jsSplitLookaheadUpper "".data = [[]] := by decide
example : jsSplitChar '_' "user_id".data = ["user".data, "id".data] := by decide
example : jsSplitChar '_' "select_".data = ["select".data, []] := by decide
example : jsSplitChar '_' [] = [[]] := by decide
example : underscoreGetColumnNameChars "userId".data = "user_id".data := by decide
example : underscoreGetColumnNameChars "AB".data = "a_b".data := by decide
example : underscoreGetColumnNameChars "select".data = "select_".data := by decide
example : underscoreGetColumnNameChars "SELECT".data = "s_e_l_e_c_t".data := by decide
example : camelGetPropertyNameChars "user_id".data = "userId".data := by decide
example : pascalGetPropertyNameChars "user_id".data = "UserId".data := by decide
example : camelGetPropertyNameChars "select_".data = "select".data := by decide
example : lookaheadSnakeChars "userId".data = "user_id".data := by decide
example : lookaheadSnakeChars "AB".data = "ab".data := by decide
example : everyUpperSnakeChars "AB".data = "a_b".data := by decide

/-! ## Structure of the lookahead split -/

theorem joinUnderscore_cons_head (c : Char) (x : List Char) (xs : List (List Char)) :
    joinUnderscore ((c :: x) :: xs) = c :: joinUnderscore (x :: xs) := by
  cases xs with
  | nil => rfl
  | cons y ys => rfl

theorem splitEU_join : ∀ l : List Char, (splitEU l).1 ++ ((splitEU l).2).flatten = l := by
  intro l
  induction l with
  | nil => rfl
  | cons c rest ih =>
    simp only [splitEU]
    by_cases h : c.isUpper = true <;>
      simp only [h, if_true, if_false, Bool.false_eq_true, List.nil_append,
        List.flatten_cons, List.cons_append] <;> rw [ih]

theorem splitEU_first_no_upper :
    ∀ l : List Char, ∀ c ∈ (splitEU l).1, c.isUpper = false := by
  intro l
  induction l with
  | nil => intro c hc; simp [splitEU] at hc
  | cons c rest ih =>
    intro d hd
    simp only [splitEU] at hd
    by_cases h : c.isUpper = true
    · simp [h] at hd
    · simp only [h, Bool.false_eq_true, if_false, List.mem_cons] at hd
      rcases hd with rfl | hd
      · simpa using h
      · exact ih d hd

theorem splitEU_rest_shape :
    ∀ l : List Char, ∀ t ∈ (splitEU l).2,
      ∃ u tr, t = u :: tr ∧ u.isUpper = true ∧ ∀ d ∈ tr, d.isUpper = false := by
  intro l
  induction l with
  | nil => intro t ht; simp [splitEU] at ht
  | cons c rest ih =>
    intro t ht
    simp only [splitEU] at ht
    by_cases h : c.isUpper = true
    · simp only [h, if_true, List.mem_cons] at ht
      rcases ht with rfl | ht
      · exact ⟨c, (splitEU rest).1, rfl, h, splitEU_first_no_upper rest⟩
      · exact ih t ht
    · simp only [h, Bool.false_eq_true, if_false] at ht
      exact ih t ht

theorem splitEU_rest_length :
    ∀ l : List Char, ((splitEU l).2).length = l.countP (·.isUpper) := by
  intro l
  induction l with
  | nil => rfl
  | cons c rest ih =>
    simp only [splitEU, List.countP_cons]
    by_cases h : c.isUpper = true <;>
      simp [h, ih]

theorem jsSplitLookaheadUpper_cons (c : Char) (rest : List Char) :
    jsSplitLookaheadUpper (c :: rest) = (c :: (splitEU rest).1) :: (splitEU rest).2 := by
  unfold jsSplitLookaheadUpper
  simp only [splitEU]
  by_cases h : c.isUpper = true <;> simp [h]

theorem map_toLower_joinUnderscore :
    ∀ xs : List (List Char),
      (joinUnderscore xs).map Char.toLower = joinUnderscore (xs.map (List.map Char.toLower)) := by
  intro xs
  induction xs with
  | nil => rfl
  | cons x ys ih =>
    cases ys with
    | nil => rfl
    | cons y zs =>
      have hu : Char.toLower '_' = '_' := by decide
      simp only [joinUnderscore, List.map_cons, List.map_append, hu, List.map] at *
      rw [ih]

theorem joinUnderscore_mem_underscore (x : List Char) (y : List Char) (zs : List (List Char)) :
    '_' ∈ joinUnderscore (x :: y :: zs) := by
  simp only [joinUnderscore]
  exact List.mem_append_right x (List.mem_cons_self '_' _)

/-! ## Inverting the underscore join by the underscore split -/

theorem splitCh_no_sep {sep : Char} : ∀ {x : List Char}, sep ∉ x → splitCh sep x = (x, []) := by
  intro x
  induction x with
  | nil => intro h; rfl
  | cons c rest ih =>
    intro h
    have hc : c ≠ sep := fun hc => h (hc ▸ List.mem_cons_self c rest)
    have hr : sep ∉ rest := fun hr => h (List.mem_cons_of_mem c hr)
    simp only [splitCh, ih hr, if_neg hc]

theorem splitCh_append_sep {sep : Char} :
    ∀ {x : List Char} (t : List Char), sep ∉ x →
      splitCh sep (x ++ sep :: t) = (x, (splitCh sep t).1 :: (splitCh sep t).2) := by
  intro x
  induction x with
  | nil => intro t _; simp [splitCh]
  | cons c rest ih =>
    intro t h
    have hc : c ≠ sep := fun hc => h (hc ▸ List.mem_cons_self c rest)
    have hr : sep ∉ rest := fun hr => h (List.mem_cons_of_mem c hr)
    simp only [List.cons_append, splitCh, if_neg hc, List.append_eq]
    rw [ih t hr]

theorem jsSplitChar_joinUnderscore :
    ∀ (xs : List (List Char)) (x : List Char), '_' ∉ x → (∀ y ∈ xs, '_' ∉ y) →
      jsSplitChar '_' (joinUnderscore (x :: xs)) = x :: xs := by
  intro xs
  induction xs with
  | nil =>
    intro x hx _
    show jsSplitChar '_' (joinUnderscore [x]) = [x]
    simp only [joinUnderscore, jsSplitChar, splitCh_no_sep hx]
  | cons y zs ih =>
    intro x hx hall
    have hy : '_' ∉ y := hall y (List.mem_cons_self y zs)
    have hzs : ∀ z ∈ zs, '_' ∉ z := fun z hz => hall z (List.mem_cons_of_mem y hz)
    have hrec := ih y hy hzs
    show jsSplitChar '_' (x ++ '_' :: joinUnderscore (y :: zs)) = x :: y :: zs
    simp only [jsSplitChar, splitCh_append_sep (joinUnderscore (y :: zs)) hx]
    simp only [jsSplitChar] at hrec
    rw [hrec]

/-! ## The snake-case step inserts a separator before every non-initial uppercase -/

theorem joinUnderscore_splitEU_flatten :
    ∀ l : List Char,
      joinUnderscore ((splitEU l).1 :: (splitEU l).2) =
        (l.map fun c => if c.isUpper then ['_', c] else [c]).flatten := by
  intro l
  induction l with
  | nil => rfl
  | cons c rest ih =>
    simp only [splitEU, List.map_cons, List.flatten_cons]
    by_cases h : c.isUpper = true
    · simp only [h, if_true]
      show '_' :: joinUnderscore ((c :: (splitEU rest).1) :: (splitEU rest).2) = _
      rw [joinUnderscore_cons_head, ih]
      rfl
    · simp only [h, Bool.false_eq_true, if_false]
      rw [joinUnderscore_cons_head, ih]
      rfl

theorem joinUnderscore_jsSplitLookaheadUpper (c : Char) (rest : List Char) :
    joinUnderscore (jsSplitLookaheadUpper (c :: rest)) =
      c :: (rest.map fun d => if d.isUpper then ['_', d] else [d]).flatten := by
  rw [jsSplitLookaheadUpper_cons, joinUnderscore_cons_head,
    joinUnderscore_splitEU_flatten rest]

theorem underscoreSnake_eq_everyUpper :
    ∀ l : List Char, underscoreSnakeChars l = everyUpperSnakeChars l := by
  intro l
  cases l with
  | nil => rfl
  | cons c rest =>
    unfold underscoreSnakeChars everyUpperSnakeChars
    rw [joinUnderscore_jsSplitLookaheadUpper, List.map_cons, List.map_flatten, List.map_map]
    refine congrArg (Char.toLower c :: ·) (congrArg List.flatten ?_)
    refine List.map_congr_left fun d _ => ?_
    by_cases h : d.isUpper = true <;> simp [h]

/-- C1: the claim's three-way-lookahead algorithm disagrees with the code.
The source snake-cases `"AB"` to `"a_b"` (a separator before every
non-initial uppercase letter), while the claimed algorithm inserts no
separator inside an uppercase run that neither follows nor precedes a
lowercase letter, producing `"ab"`. -/
theorem c1_lookahead_counterexample :
    underscoreGetColumnNameChars "AB".data = "a_b".data ∧
    lookaheadSnakeChars "AB".data = "ab".data ∧
    "a_b".data ≠ "ab".data :=
  ⟨by decide, by decide, by decide⟩

/-- C1 amended: `getColumnName` of the underscore strategies produces its
result by inserting a separator before every uppercase letter that is not
the first character (regardless of the neighbouring characters), joining
with an underscore, lowercasing the entire result, and then appending a
trailing underscore when the result is reserved. -/
theorem c1_snake_before_every_nonfirst_upper (l : List Char) :
    underscoreGetColumnNameChars l =
      (if String.mk (everyUpperSnakeChars l) ∈ TableMappings.ReservedWords
       then everyUpperSnakeChars l ++ ['_']
       else everyUpperSnakeChars l) := by
  unfold underscoreGetColumnNameChars
  rw [underscoreSnake_eq_everyUpper]

/-! ## The column-to-property conversions -/

theorem mapIdx_congr_const {α β : Type} (h : α → β) :
    ∀ (ws : List α) (f : Nat → α → β), (∀ i w, f i w = h w) →
      List.mapIdx f ws = ws.map h := by
  intro ws
  induction ws with
  | nil => intro f _; rfl
  | cons a as ih =>
    intro f hf
    rw [List.mapIdx_cons, hf 0 a, List.map_cons, ih (fun i => f (i + 1)) (fun i w => hf (i + 1) w)]

/-- C6: the camel `getPropertyName` splits on underscores, leaves the first
segment unchanged, upper-cases the first character of every later segment
and concatenates; the pascal variant upper-cases the first character of
every segment including the first; `"user_id"` maps to `"userId"` (camel)
and `"UserId"` (pascal), and `getColumnName "userId" = "user_id"`. -/
theorem c6_property_name_conversion :
    (∀ l : List Char, camelGetPropertyNameChars l = camelPropertyNameSpec l) ∧
    (∀ l : List Char, pascalGetPropertyNameChars l = pascalPropertyNameSpec l) ∧
    camelGetPropertyName "user_id" = "userId" ∧
    pascalGetPropertyName "user_id" = "UserId" ∧
    camelGetColumnName "userId" = "user_id" := by
  refine ⟨fun l => ?_, fun l => ?_, by decide, by decide, by decide⟩
  · unfold camelGetPropertyNameChars camelPropertyNameSpec jsSplitChar
    rw [List.mapIdx_cons, if_pos rfl,
      mapIdx_congr_const upperFirstWord _ _ (fun i w => if_neg (Nat.succ_ne_zero i))]
    rfl
  · unfold pascalGetPropertyNameChars pascalPropertyNameSpec jsSplitChar
    rw [List.map_cons]
    rfl

/-! ## The reserved-word post-step -/

theorem reserved_words_no_underscore :
    ∀ w ∈ TableMappings.ReservedWords, '_' ∉ w.data := by decide

/-- C7: the claim quantifies over every property name that lowercases to
`"select"`, but the code checks the reserved list against the snake-cased
form, not the lowercased input: `"SELECT"` lowercases to `"select"`, yet its
snake-cased form is `"s_e_l_e_c_t"`, which is not reserved, so no trailing
underscore is appended. -/
theorem c7_reserved_counterexample :
    jsToLowerString "SELECT" = "select" ∧
    underscoreGetColumnNameChars "SELECT".data = "s_e_l_e_c_t".data ∧
    "s_e_l_e_c_t".data ≠ "select_".data :=
  ⟨by decide, by decide, by decide⟩

/-- C7 amended: a single trailing underscore is appended exactly when the
snake-cased form of the property name is a member of the reserved-word set
(which holds exactly when it matches one of the raw uppercase keywords
case-insensitively, the stored set being their lowercasings); otherwise the
snake-cased form is returned unchanged. Property names whose snake-cased
form is `"select"` (such as `"select"` and `"Select"`) yield `"select_"`. -/
theorem c7_reserved_escaping_amended :
    (∀ l : List Char,
      (underscoreGetColumnNameChars l = underscoreSnakeChars l ++ ['_'] ↔
        String.mk (underscoreSnakeChars l) ∈ TableMappings.ReservedWords) ∧
      (underscoreGetColumnNameChars l = underscoreSnakeChars l ∨
        underscoreGetColumnNameChars l = underscoreSnakeChars l ++ ['_']) ∧
      (String.mk (underscoreSnakeChars l) ∈ TableMappings.ReservedWords ↔
        ∃ w ∈ TableMappings.ReservedWordsRaw,
          String.mk (underscoreSnakeChars l) = jsToLowerString w)) ∧
    underscoreGetColumnNameChars "select".data = "select_".data ∧
    underscoreGetColumnNameChars "Select".data = "select_".data := by
  refine ⟨fun l => ⟨?_, ?_, ?_⟩, by decide, by decide⟩
  · constructor
    · intro happ
      by_cases hm : String.mk (underscoreSnakeChars l) ∈ TableMappings.ReservedWords
      · exact hm
      · exfalso
        have heq : underscoreGetColumnNameChars l = underscoreSnakeChars l := by
          unfold underscoreGetColumnNameChars
          rw [if_neg hm]
        rw [heq] at happ
        have := congrArg List.length happ
        simp at this
    · intro hm
      unfold underscoreGetColumnNameChars
      rw [if_pos hm]
  · by_cases hm : String.mk (underscoreSnakeChars l) ∈ TableMappings.ReservedWords
    · right
      unfold underscoreGetColumnNameChars
      rw [if_pos hm]
    · left
      unfold underscoreGetColumnNameChars
      rw [if_neg hm]
  · unfold TableMappings.ReservedWords
    rw [List.mem_map]
    constructor
    · rintro ⟨w, hw, heq⟩
      exact ⟨w, hw, heq.symm⟩
    · rintro ⟨w, hw, heq⟩
      exact ⟨w, hw, heq.symm⟩

/-- C10: every strategy maps the empty identifier to the empty identifier in
both directions; the empty string snake-cases to itself and is not reserved,
and the single empty segment produced by the underscore split contributes
the empty string under both property-name variants. -/
theorem c10_empty_identifier :
    underscoreGetColumnNameChars [] = [] ∧
    camelGetPropertyNameChars [] = [] ∧
    pascalGetPropertyNameChars [] = [] ∧
    camelGetColumnName "" = "" ∧
    camelGetPropertyName "" = "" ∧
    pascalGetColumnName "" = "" ∧
    pascalGetPropertyName "" = "" ∧
    TableMappings.getColumnName "" = "" ∧
    TableMappings.getPropertyName "" = "" := by decide

/-- C2: the camel strategy converts the nested document
`{ userId: 1, address: { zipCode: "X" } }` to
`{ user_id: 1, address: { zip_code: "X" } }`, and `objectToFixedCasing`
applied to that result restores the original structure. -/
theorem c2_nested_round_trip :
    camelObjectToTableCasing false
        (.obj [("userId", .num 1), ("address", .obj [("zipCode", .str "X")])]) =
      .obj [("user_id", .num 1), ("address", .obj [("zip_code", .str "X")])] ∧
    camelObjectToFixedCasing false
        (.obj [("user_id", .num 1), ("address", .obj [("zip_code", .str "X")])]) =
      .obj [("userId", .num 1), ("address", .obj [("zipCode", .str "X")])] :=
  ⟨rfl, rfl⟩

/-- C3: with `convertLongToString` enabled, the camel strategy converts a
`Long` leaf to its decimal string in both directions and the pascal strategy
does so in `objectToFixedCasing`, but the pascal `objectToTableCasing`
assigns the raw value in its `Date`/`null`/`Long` branch and leaves the
`Long` unchanged even though the flag is set — contradicting the claim that
both strategies convert in both directions. With the flag disabled the value
passes through unchanged everywhere. -/
theorem c3_long_conversion_flag :
    camelObjectToTableCasing true (.obj [("a", .long 5)]) = .obj [("a", .str "5")] ∧
    camelObjectToFixedCasing true (.obj [("a", .long 5)]) = .obj [("a", .str "5")] ∧
    pascalObjectToFixedCasing true (.obj [("a", .long 5)]) = .obj [("A", .str "5")] ∧
    pascalObjectToTableCasing (.obj [("a", .long 5)]) = .obj [("a", .long 5)] ∧
    Value.obj [("a", .long 5)] ≠ .obj [("a", .str "5")] ∧
    camelObjectToTableCasing false (.obj [("a", .long 5)]) = .obj [("a", .long 5)] ∧
    camelObjectToFixedCasing false (.obj [("a", .long 5)]) = .obj [("a", .long 5)] ∧
    pascalObjectToFixedCasing false (.obj [("a", .long 5)]) = .obj [("A", .long 5)] :=
  ⟨rfl, rfl, rfl, rfl, by simp, rfl, rfl, rfl⟩

/-- C4: the claim that every top-level non-structural value is returned
identically fails for a `Date`: `typeof date === 'object'`, so a top-level
`Date` passes the guard, is not an array, and its (empty) `Object.entries`
loop produces the empty object rather than the date itself. -/
theorem c4_top_level_date_counterexample :
    camelObjectToTableCasing false (.date 0) = .obj [] ∧
    Value.obj [] ≠ .date 0 :=
  ⟨rfl, fun h => Value.noConfusion h⟩

/-- C4 amended: for every strategy, `objectToTableCasing` returns a
top-level scalar or `null` identically, but a top-level `Date` or `Long` is
`object`-typed and is rebuilt through the `Object.entries` loop: a `Date`
(no own enumerable properties) becomes the empty mapping and a `Long`
becomes a plain mapping of its scalar fields — neither is returned as the
identical value. -/
theorem c4_top_level_leaves_amended (flag : Bool) :
    (∀ n : Int, camelObjectToTableCasing flag (.num n) = .num n) ∧
    (∀ s : String, camelObjectToTableCasing flag (.str s) = .str s) ∧
    (∀ b : Bool, camelObjectToTableCasing flag (.bool b) = .bool b) ∧
    camelObjectToTableCasing flag .null = .null ∧
    (∀ t : Int, camelObjectToTableCasing flag (.date t) = .obj [] ∧
      camelObjectToTableCasing flag (.date t) ≠ .date t) ∧
    (∀ m : Int, camelObjectToTableCasing flag (.long m) =
        .obj (scalarEntriesLoop camelGetColumnName (longOwnEntries m) []) ∧
      camelObjectToTableCasing flag (.long m) ≠ .long m) ∧
    (∀ n : Int, pascalObjectToTableCasing (.num n) = .num n) ∧
    (∀ s : String, pascalObjectToTableCasing (.str s) = .str s) ∧
    (∀ b : Bool, pascalObjectToTableCasing (.bool b) = .bool b) ∧
    pascalObjectToTableCasing .null = .null ∧
    (∀ t : Int, pascalObjectToTableCasing (.date t) = .obj [] ∧
      pascalObjectToTableCasing (.date t) ≠ .date t) ∧
    (∀ m : Int, pascalObjectToTableCasing (.long m) =
        .obj (scalarEntriesLoop pascalGetColumnName (longOwnEntries m) []) ∧
      pascalObjectToTableCasing (.long m) ≠ .long m) ∧
    (∀ n : Int, defaultObjectToTableCasing (.num n) = .num n) ∧
    (∀ s : String, defaultObjectToTableCasing (.str s) = .str s) ∧
    (∀ b : Bool, defaultObjectToTableCasing (.bool b) = .bool b) ∧
    defaultObjectToTableCasing .null = .null ∧
    (∀ t : Int, defaultObjectToTableCasing (.date t) = .obj [] ∧
      defaultObjectToTableCasing (.date t) ≠ .date t) ∧
    (∀ m : Int, defaultObjectToTableCasing (.long m) =
        .obj (scalarEntriesLoop TableMappings.getColumnName (longOwnEntries m) []) ∧
      defaultObjectToTableCasing (.long m) ≠ .long m) :=
  ⟨fun _ => rfl, fun _ => rfl, fun _ => rfl, rfl,
   fun _ => ⟨rfl, fun h => Value.noConfusion h⟩,
   fun _ => ⟨rfl, fun h => Value.noConfusion h⟩,
   fun _ => rfl, fun _ => rfl, fun _ => rfl, rfl,
   fun _ => ⟨rfl, fun h => Value.noConfusion h⟩,
   fun _ => ⟨rfl, fun h => Value.noConfusion h⟩,
   fun _ => rfl, fun _ => rfl, fun _ => rfl, rfl,
   fun _ => ⟨rfl, fun h => Value.noConfusion h⟩,
   fun _ => ⟨rfl, fun h => Value.noConfusion h⟩⟩

/-- C5: the claim that temporal and big-integer leaves of a single-level
mapping appear unchanged in the flattened sequence fails: such values are
`object`-typed, so `objectToArray` pushes them through
`objectToTableCasing`, turning a `Date` value into the empty object. A
top-level `Date` likewise yields `[]`, not `[date]`. -/
theorem c5_flatten_date_counterexample :
    camelObjectToArray false (.obj [("a", .date 0)]) = [.obj []] ∧
    [Value.obj []] ≠ [Value.date 0] ∧
    camelObjectToArray false (.date 0) = [] ∧
    ([] : List Value) ≠ [.date 0] :=
  ⟨rfl, by simp, rfl, by simp⟩

/-- C5 amended: `objectToArray` returns `[]` for `null`, the singleton of a
non-`object`-typed value, `[]` for a top-level `Date`, the field values of a
top-level `Long`, and for a single-level mapping the sequence of its values
in iteration order in which every `object`-typed value (mappings, sequences,
`null`, `Date` and `Long` leaves) has been passed through
`objectToTableCasing` while only non-`object`-typed scalars appear
unchanged. -/
theorem c5_flatten_amended (flag : Bool) :
    camelObjectToArray flag .null = [] ∧
    (∀ n : Int, camelObjectToArray flag (.num n) = [.num n]) ∧
    (∀ s : String, camelObjectToArray flag (.str s) = [.str s]) ∧
    (∀ b : Bool, camelObjectToArray flag (.bool b) = [.bool b]) ∧
    (∀ t : Int, camelObjectToArray flag (.date t) = []) ∧
    (∀ m : Int, camelObjectToArray flag (.long m) = (longOwnEntries m).map Prod.snd) ∧
    (∀ kvs : List (String × Value),
      camelObjectToArray flag (.obj kvs) =
        kvs.map fun p =>
          match p.2 with
          | .obj kvs2 => camelObjectToTableCasing flag (.obj kvs2)
          | .arr vs => camelObjectToTableCasing flag (.arr vs)
          | .null => .null
          | .date _ => .obj []
          | .long m => .obj (scalarEntriesLoop camelGetColumnName (longOwnEntries m) [])
          | v => v) := by
  refine ⟨rfl, fun _ => rfl, fun _ => rfl, fun _ => rfl, fun _ => rfl, fun _ => rfl,
    fun kvs => ?_⟩
  show (jsEntries (.obj kvs)).map _ = _
  refine List.map_congr_left ?_
  rintro ⟨k, v⟩ hv
  cases v <;> rfl

/-! ## Round-tripping identifiers with an internal uppercase letter -/

theorem underscore_column_split (c : Char) (rest : List Char)
    (halpha : ∀ d ∈ c :: rest, d.isAlpha = true)
    (hupper : ∃ u ∈ rest, u.isUpper = true) :
    jsSplitChar '_' (underscoreGetColumnNameChars (c :: rest)) =
      List.map Char.toLower (c :: (splitEU rest).1) ::
        ((splitEU rest).2).map (List.map Char.toLower) := by
  have hsegs : jsSplitLookaheadUpper (c :: rest) =
      (c :: (splitEU rest).1) :: (splitEU rest).2 := jsSplitLookaheadUpper_cons c rest
  have hjoin : (c :: (splitEU rest).1) ++ ((splitEU rest).2).flatten = c :: rest := by
    rw [List.cons_append, splitEU_join rest]
  have hcount : 0 < rest.countP (·.isUpper) := List.countP_pos_iff.mpr hupper
  obtain ⟨t, ts, hts⟩ : ∃ t ts, (splitEU rest).2 = t :: ts := by
    cases hssval : (splitEU rest).2 with
    | nil =>
      have hlen := splitEU_rest_length rest
      rw [hssval] at hlen
      simp at hlen
      omega
    | cons t ts => exact ⟨t, ts, rfl⟩
  have husc : '_' ∈ underscoreSnakeChars (c :: rest) := by
    unfold underscoreSnakeChars
    rw [hsegs, hts]
    exact List.mem_map.mpr ⟨'_', joinUnderscore_mem_underscore _ t ts, by decide⟩
  have hnr : String.mk (underscoreSnakeChars (c :: rest)) ∉ TableMappings.ReservedWords := by
    intro hm
    exact reserved_words_no_underscore _ hm husc
  have hcol : underscoreGetColumnNameChars (c :: rest) = underscoreSnakeChars (c :: rest) := by
    unfold underscoreGetColumnNameChars
    rw [if_neg hnr]
  have hlower : underscoreSnakeChars (c :: rest) =
      joinUnderscore (((c :: (splitEU rest).1) :: (splitEU rest).2).map (List.map Char.toLower)) := by
    unfold underscoreSnakeChars
    rw [hsegs, map_toLower_joinUnderscore]
  have hnou : ∀ y ∈ ((c :: (splitEU rest).1) :: (splitEU rest).2).map (List.map Char.toLower),
      '_' ∉ y := by
    intro y hy hy'
    obtain ⟨seg, hseg, rfl⟩ := List.mem_map.mp hy
    obtain ⟨d, hd, hde⟩ := List.mem_map.mp hy'
    have hdl : d ∈ c :: rest := by
      rcases List.mem_cons.mp hseg with rfl | hseg2
      · exact hjoin ▸ List.mem_append_left _ hd
      · exact hjoin ▸ List.mem_append_right _ (List.mem_flatten.mpr ⟨seg, hseg2, hd⟩)
    exact toLower_ne_underscore (halpha d hdl) hde
  rw [hcol, hlower, List.map_cons]
  exact jsSplitChar_joinUnderscore _ _
    (by
      intro hy'
      exact hnou _ (List.mem_map.mpr ⟨c :: (splitEU rest).1, List.mem_cons_self _ _, rfl⟩) hy')
    (by
      intro y hy
      exact hnou y (by rw [List.map_cons]; exact List.mem_cons_of_mem _ hy))

theorem restored_tail_segments (rest : List Char) :
    ((splitEU rest).2.map (List.map Char.toLower)).map upperFirstWord = (splitEU rest).2 := by
  rw [List.map_map]
  have hcongr : (splitEU rest).2.map (upperFirstWord ∘ List.map Char.toLower) =
      (splitEU rest).2.map id := by
    refine List.map_congr_left fun t ht => ?_
    obtain ⟨u, tr, rfl, hu, htr⟩ := splitEU_rest_shape rest t ht
    show upperFirstWord ((u :: tr).map Char.toLower) = u :: tr
    rw [List.map_cons, map_toLower_of_no_upper htr]
    show Char.toUpper (Char.toLower u) :: tr = u :: tr
    rw [toUpper_toLower_of_upper hu]
  rw [hcongr, List.map_id]

/-- C8: for a property name of ASCII letters with an uppercase letter after
the first position, snake-casing and converting back is the identity for the
matching variant — camel when the name starts with a lowercase letter,
pascal when it starts with an uppercase letter. The reserved-word exception
never fires under these hypotheses: the snake-cased form of such a name
contains an underscore, and no reserved word does. -/
theorem c8_identifier_round_trip :
    (∀ (c : Char) (rest : List Char), c.isLower = true →
      (∀ d ∈ c :: rest, d.isAlpha = true) → (∃ u ∈ rest, u.isUpper = true) →
      camelGetPropertyNameChars (underscoreGetColumnNameChars (c :: rest)) = c :: rest) ∧
    (∀ (c : Char) (rest : List Char), c.isUpper = true →
      (∀ d ∈ c :: rest, d.isAlpha = true) → (∃ u ∈ rest, u.isUpper = true) →
      pascalGetPropertyNameChars (underscoreGetColumnNameChars (c :: rest)) = c :: rest) := by
  constructor
  · intro c rest hlow halpha hupper
    have hsplit := underscore_column_split c rest halpha hupper
    unfold camelGetPropertyNameChars
    rw [hsplit, List.mapIdx_cons, if_pos rfl,
      mapIdx_congr_const upperFirstWord _ _ (fun i w => if_neg (Nat.succ_ne_zero i))]
    have hhead : List.map Char.toLower (c :: (splitEU rest).1) = c :: (splitEU rest).1 := by
      refine map_toLower_of_no_upper ?_
      intro d hd
      rcases List.mem_cons.mp hd with rfl | hd2
      · exact not_upper_of_lower hlow
      · exact splitEU_first_no_upper rest d hd2
    rw [hhead, restored_tail_segments, List.flatten_cons, List.cons_append, splitEU_join rest]
  · intro c rest hup halpha hupper
    have hsplit := underscore_column_split c rest halpha hupper
    unfold pascalGetPropertyNameChars
    rw [hsplit, List.map_cons, restored_tail_segments]
    have hhead : upperFirstWord (List.map Char.toLower (c :: (splitEU rest).1)) =
        c :: (splitEU rest).1 := by
      rw [List.map_cons, map_toLower_of_no_upper (splitEU_first_no_upper rest)]
      show Char.toUpper (Char.toLower c) :: (splitEU rest).1 = c :: (splitEU rest).1
      rw [toUpper_toLower_of_upper hup]
    rw [hhead, List.flatten_cons, List.cons_append, splitEU_join rest]

/-- Witness for the round-trip theorem at `"userId"` (camel) and `"UserId"`
(pascal). -/
theorem c8_identifier_round_trip_witness :
    camelGetPropertyNameChars (underscoreGetColumnNameChars ['u', 's', 'e', 'r', 'I', 'd']) =
      ['u', 's', 'e', 'r', 'I', 'd'] ∧
    pascalGetPropertyNameChars (underscoreGetColumnNameChars ['U', 's', 'e', 'r', 'I', 'd']) =
      ['U', 's', 'e', 'r', 'I', 'd'] :=
  ⟨c8_identifier_round_trip.1 'u' ['s', 'e', 'r', 'I', 'd'] (by decide) (by decide)
      ⟨'I', by decide, by decide⟩,
   c8_identifier_round_trip.2 'U' ['s', 'e', 'r', 'I', 'd'] (by decide) (by decide)
      ⟨'I', by decide, by decide⟩⟩
